import Mathlib

/-!
Verification of `git-clone-select` (`src/bin/git-clone.js`), an interactive CLI
that clones a git repository into a configured projects directory.

Paths are modelled at the character-list level with POSIX separators, mirroring
the Node.js `path.posix` functions (`resolve`, `join`, `normalize`) that the
program uses.  JavaScript strings become `String`/`List Char`, `null`/`false`
returns become `Option`, thrown-and-caught errors become `Except`, and the
process-exiting helper `error(msg)` (which prints and calls `process.exit(1)`)
becomes an `Except.error`/abort outcome in the flow models.
-/

/-- Split a character list on `'/'` (the list of `'/'`-separated fields,
as String.prototype.split('/') produces). -/
def splitSlash : List Char → List (List Char)
  | [] => [[]]
  | c :: cs =>
    if c = '/' then [] :: splitSlash cs
    else
      match splitSlash cs with
      | [] => [[c]]
      | g :: gs => (c :: g) :: gs

/-- Join fields with `'/'` separators (inverse of `splitSlash` on
slash-free fields). -/
def joinSlash : List (List Char) → List Char
  | [] => []
  | [g] => g
  | g :: gs => g ++ '/' :: joinSlash gs

/-- The last character of a character list, if any. -/
def lastChar? (l : List Char) : Option Char :=
  l.reverse.head?

/-- A plain path segment: nonempty, slash-free, and not the special
segments `.` or `..`. -/
def isCleanSeg (s : List Char) : Prop :=
  s ≠ [] ∧ '/' ∉ s ∧ s ≠ ['.'] ∧ s ≠ ['.', '.']

instance (s : List Char) : Decidable (isCleanSeg s) := by
  unfold isCleanSeg; infer_instance

/-- Core of Node's `normalizeString`: processes the `'/'`-separated segments,
dropping empty and `.` segments and resolving `..` against a stack `acc`
(held reversed).  When `allowAbove` is `true` (relative paths) excess `..`
segments are kept; when `false` (absolute paths) they are dropped at the
root. -/
def normSegsAux (allowAbove : Bool) (acc : List (List Char)) :
    List (List Char) → List (List Char)
  | [] => acc.reverse
  | s :: rest =>
    if s = [] ∨ s = ['.'] then normSegsAux allowAbove acc rest
    else if s = ['.', '.'] then
      match acc with
      | [] => normSegsAux allowAbove (if allowAbove then [['.', '.']] else []) rest
      | t :: tl =>
        if t = ['.', '.'] then normSegsAux allowAbove (s :: acc) rest
        else normSegsAux allowAbove tl rest
    else normSegsAux allowAbove (s :: acc) rest

/-- Node `path.posix.normalize` on character lists: empty input is `.`,
absoluteness and a trailing separator are preserved, segments are
normalized by `normSegsAux`. -/
def pathNormalizeChars (p : List Char) : List Char :=
  if p = [] then ['.']
  else
    let isAbs : Bool := p.head? == some '/'
    let trail : Bool := lastChar? p == some '/'
    let core := joinSlash (normSegsAux (!isAbs) [] (splitSlash p))
    if core = [] then
      if isAbs then ['/'] else if trail then ['.', '/'] else ['.']
    else
      let core2 := if trail then core ++ ['/'] else core
      if isAbs then '/' :: core2 else core2

/-- Node `path.posix.join` on character lists: drop empty parts, join the
rest with `'/'`, and normalize; all-empty input yields `.`. -/
def pathJoinChars (parts : List (List Char)) : List Char :=
  let ps := parts.filter (fun q => !q.isEmpty)
  if ps = [] then ['.'] else pathNormalizeChars (joinSlash ps)

/-- Node `path.posix.resolve cwd p` on character lists: if `p` is absolute it
is normalized on its own, otherwise it is resolved against `cwd`; the result
never keeps a trailing separator. -/
def pathResolveChars (cwd p : List Char) : List Char :=
  let work :=
    if p = [] then cwd
    else if p.head? == some '/' then p
    else if cwd = [] then p
    else cwd ++ '/' :: p
  let isAbs : Bool := work.head? == some '/'
  let core := joinSlash (normSegsAux (!isAbs) [] (splitSlash work))
  if isAbs then (if core = [] then ['/'] else '/' :: core)
  else (if core = [] then ['.'] else core)

/-- `path.resolve` on `String`s (with an explicit `cwd` standing for
`process.cwd()`). -/
def pathResolve (cwd p : String) : String :=
  ⟨pathResolveChars cwd.data p.data⟩

/-- `path.join` of two `String`s. -/
def pathJoin2 (a b : String) : String :=
  ⟨pathJoinChars [a.data, b.data]⟩

/-- Character-level body of `validatePathWithinProjectsDir` from
`src/bin/git-clone.js` (lines 221-236): resolve both paths, append a
separator to each, and reject unless the target-with-separator starts with
the root-with-separator or the resolved paths are equal; on acceptance
return the resolved target. -/
def validateChars (cwd targetPath projectsDir : List Char) : Option (List Char) :=
  let resolved := pathResolveChars cwd targetPath
  let projectsResolved := pathResolveChars cwd projectsDir
  let normalizedTarget := resolved ++ ['/']
  let normalizedProjects := projectsResolved ++ ['/']
  if (!normalizedProjects.isPrefixOf normalizedTarget) && resolved ≠ projectsResolved then
    none
  else
    some resolved

/-- `validatePathWithinProjectsDir(targetPath, projectsDir)`: `none` models the
JavaScript `false` return, `some` carries the resolved path. -/
def validatePathWithinProjectsDir (cwd targetPath projectsDir : String) : Option String :=
  (validateChars cwd.data targetPath.data projectsDir.data).map String.mk

/-- Tail test of the repo-name regex `\/([^\/]+?)(?:\.git)?\/?$` from
`extractRepoName` (lines 206-210): after the captured group, the remainder of
the input must be the optional literal `.git`, then an optional `/`, then the
end, i.e. one of `""`, `".git"`, `"/"`, `".git/"`. -/
def tailOk (r : List Char) : Bool :=
  r == [] || r == ['.', 'g', 'i', 't'] || r == ['/'] || r == ['.', 'g', 'i', 't', '/']

/-- Lazy matching of the capture group `([^\/]+?)` of the repo-name regex:
grow the group one character at a time (never across a `'/'`) until the
remainder passes `tailOk`; the group is returned. -/
def lazyFind (acc : List Char) : List Char → Option (List Char)
  | [] => none
  | c :: cs =>
    if c = '/' then none
    else if tailOk cs then some (acc ++ [c])
    else lazyFind (acc ++ [c]) cs

/-- Leftmost match of `\/([^\/]+?)(?:\.git)?\/?$` as `String.prototype.match`
computes it: scan left to right for a `'/'` whose tail admits a match and
return the captured group of the first such position. -/
def findMatch : List Char → Option (List Char)
  | [] => none
  | c :: cs =>
    if c = '/' then
      match lazyFind [] cs with
      | some g => some g
      | none => findMatch cs
    else findMatch cs

/-- `extractRepoName(url)` (lines 206-210): the capture of the regex match,
`none` modelling the JavaScript `null`. -/
def extractRepoName (url : String) : Option String :=
  (findMatch url.data).map String.mk

/-- `extractRepoName(gitUrl) || 'repository'` (line 520); the capture group is
always nonempty, so JavaScript truthiness coincides with match success. -/
def defaultRepoName (url : String) : String :=
  (extractRepoName url).getD "repository"

/-- Result object of Node's `spawnSync`: `error` is set when the spawn itself
failed (e.g. the binary is missing), `status` is the exit code (`none` for the
JavaScript `null`, as after a spawn error). -/
structure SpawnResult where
  error : Option String
  status : Option Int
deriving DecidableEq

/-- `cloneRepository(url, targetDir, projectsDir)` (lines 238-268), applied to
the observed `spawnSync('git', ['clone', url, targetDir])` result: a spawn
error or a non-zero (or `null`) status is thrown, caught, and handed to
`error(...)`, which prints the message and exits the process with code 1 —
modelled as `Except.error` carrying the reported message; on status 0 the
target directory is returned. -/
def cloneRepository (res : SpawnResult) (targetDir : String) : Except String String :=
  match res.error with
  | some e => Except.error ("\n✗ Failed to clone repository: " ++ e)
  | none =>
    match res.status with
    | some s =>
      if s = 0 then Except.ok targetDir
      else Except.error ("\n✗ Failed to clone repository: Git clone failed with exit code "
        ++ toString s)
    | none =>
      Except.error "\n✗ Failed to clone repository: Git clone failed with exit code null"

/-- Observable outcome of the tail of `main` around the clone step
(lines 736-748): the process exit code, whether the post-clone editor-open
prompt (`promptOpenInCursor`) is reached, and the reported failure message,
if any. -/
structure FlowResult where
  exitCode : Nat
  promptShown : Bool
  reported : Option String
deriving DecidableEq

/-- The clone step of `main` (line 736) together with the `if (clonedPath)`
guard (line 739): a failed clone reports and exits 1 inside `error()`, so the
prompt is never reached; a successful clone reaches the prompt. -/
def mainCloneStep (res : SpawnResult) (targetDir : String) : FlowResult :=
  match cloneRepository res targetDir with
  | Except.error m => ⟨1, false, some m⟩
  | Except.ok _ => ⟨0, true, none⟩

/-- The parsed shape of the persisted config file: its `projectsDir` field,
when present. -/
structure ConfigJson where
  projectsDir : Option String
deriving DecidableEq

/-- JavaScript truthiness of the `GIT_CLONE_PROJECTS_DIR` environment value
(line 35): set and non-empty. -/
def envTruthy : Option String → Bool
  | some s => s != ""
  | none => false

/-- File-reading part of `loadConfig` (lines 39-53): when the config file
exists, `parse` is the outcome of `JSON.parse` on its contents; a truthy
`projectsDir` field is returned, a parse failure logs a warning and yields
`none`, everything else yields `none`.  The second component is the list of
logged warnings. -/
def loadConfigFromFile (fileExists : Bool) (parse : Except String ConfigJson) :
    Option String × List String :=
  if fileExists then
    match parse with
    | Except.ok config =>
      match config.projectsDir with
      | some d => if d != "" then (some d, []) else (none, [])
      | none => (none, [])
    | Except.error e => (none, ["Warning: Could not read config file: " ++ e])
  else (none, [])

/-- `loadConfig()` (lines 33-54): a truthy environment variable is returned
verbatim, otherwise the persisted file is consulted; the function is total
(never throws). -/
def loadConfig (envVar : Option String) (fileExists : Bool)
    (parse : Except String ConfigJson) : Option String × List String :=
  if envTruthy envVar then (envVar, []) else loadConfigFromFile fileExists parse

/-- Observable outcome of the `--reset-config` branch of `main`
(lines 447-459). -/
structure ResetOutcome where
  exitCode : Nat
  deleted : Bool
  messages : List String
deriving DecidableEq

/-- The `--reset-config` branch (lines 447-459): unlink the config file when
it exists (`unlinkError` is the outcome of `fs.unlinkSync`), then in every
non-error case print the setup guidance and exit 0. -/
def resetConfigCmd (fileExists : Bool) (unlinkError : Option String) : ResetOutcome :=
  if fileExists then
    match unlinkError with
    | some e => ⟨1, false, ["Failed to reset config: " ++ e]⟩
    | none => ⟨0, true, ["Configuration reset.", "Run git-clone to set up configuration."]⟩
  else ⟨0, false, ["Run git-clone to set up configuration."]⟩

/-- Spec-side containment predicate, modelled from the claim's words: path `p`
lies within directory `d` when it equals `d` or sits below it past a
path-separator boundary. -/
def withinDir (d p : String) : Prop :=
  p = d ∨ (d.data ++ ['/']) <+: p.data

instance (d p : String) : Decidable (withinDir d p) := by
  unfold withinDir; infer_instance

/-- `setConfig(newPath)` (lines 356-364): resolve the input and reject it via
`error()` (exit 1, before any mutation) unless the resolved path starts with
the home directory string; `Except.ok` carries the path that the rest of the
function (directory-creation offer, then `saveConfig`) goes on to persist. -/
def setConfig (homeDir cwd newPath : String) : Except String String :=
  let resolved := pathResolve cwd newPath
  if (homeDir.data).isPrefixOf resolved.data then Except.ok resolved
  else Except.error "Projects directory must be within your home directory"

/-- Behaviour of one `spawnSync` call as the `try`/`catch` in `openInCursor`
observes it: either the call throws, or it returns a result object (spawn
failures such as a missing binary are returned in `res.error`, not thrown). -/
inductive SpawnBehavior where
  | throws (msg : String)
  | returns (res : SpawnResult)
deriving DecidableEq

/-- Observable outcome of `openInCursor` (lines 270-291). -/
structure OpenOutcome where
  fallbackAttempted : Bool
  messages : List String
deriving DecidableEq

/-- `openInCursor(targetDir)` (lines 270-291): try `spawnSync('cursor', ...)`;
only a thrown error reaches the `catch` that tries `spawnSync('code', ...)`;
if that also throws, a manual-open warning is printed.  The function never
exits the process, so it cannot change the flow's exit status. -/
def openInCursor (primary fallback : SpawnBehavior) : OpenOutcome :=
  match primary with
  | SpawnBehavior.returns _ => ⟨false, ["Opening in Cursor..."]⟩
  | SpawnBehavior.throws _ =>
    match fallback with
    | SpawnBehavior.returns _ => ⟨true, ["Opening in editor..."]⟩
    | SpawnBehavior.throws _ =>
      ⟨true, ["Could not open in Cursor automatically. Please open manually."]⟩

/-- The character class of the JavaScript regex `.` (any character except a
line terminator). -/
def isDotChar (c : Char) : Bool :=
  c != '\n' && c != '\r' && c != '\u2028' && c != '\u2029'

/-- The character class `[\w\-\.]` of the hosted-forge URL patterns. -/
def isWordDashDot (c : Char) : Bool :=
  ('A' ≤ c && c ≤ 'Z') || ('a' ≤ c && c ≤ 'z') || ('0' ≤ c && c ≤ '9')
    || c == '_' || c == '-' || c == '.'

/-- Matcher for `.*\.git$`: the input ends in `.git` and every character
before that suffix matches `.`. -/
def dotStarDotGit (r : List Char) : Bool :=
  ['.', 'g', 'i', 't'].isSuffixOf r && (r.take (r.length - 4)).all isDotChar

/-- The pattern `^https?:\/\/.*\.git$`. -/
def httpDotGitPattern (l : List Char) : Bool :=
  (("http://".data).isPrefixOf l && dotStarDotGit (l.drop 7))
  || (("https://".data).isPrefixOf l && dotStarDotGit (l.drop 8))

/-- The pattern `^git@.*:.*\.git$`: prefix `git@`, suffix `.git`, and the
characters in between contain a `:` and all match `.`. -/
def gitAtPattern (l : List Char) : Bool :=
  ("git@".data).isPrefixOf l && ['.', 'g', 'i', 't'].isSuffixOf l &&
    (let mid := (l.drop 4).take (l.length - 8)
     mid.contains ':' && mid.all isDotChar)

/-- Matcher for the unanchored tail `[\w\-\.]+\/[\w\-\.]+` of the hosted-forge
patterns: a nonempty run of class characters, a `/`, and at least one further
class character (the rest of the input is unconstrained). -/
def ownerRepoTail (rest : List Char) : Bool :=
  let run := rest.takeWhile isWordDashDot
  !run.isEmpty &&
    (match rest.drop run.length with
     | '/' :: c :: _ => isWordDashDot c
     | _ => false)

/-- The pattern `^https?:\/\/<host>\/[\w\-\.]+\/[\w\-\.]+` for a literal
host. -/
def hostPattern (host l : List Char) : Bool :=
  (let p := "http://".data ++ host ++ ['/']
   p.isPrefixOf l && ownerRepoTail (l.drop p.length))
  || (let p := "https://".data ++ host ++ ['/']
      p.isPrefixOf l && ownerRepoTail (l.drop p.length))

/-- `validateGitUrl(url)` (lines 193-204): `url` matches one of the five
accepted patterns. -/
def validateGitUrl (url : String) : Bool :=
  httpDotGitPattern url.data || gitAtPattern url.data
    || hostPattern "github.com".data url.data
    || hostPattern "gitlab.com".data url.data
    || hostPattern "bitbucket.org".data url.data

/-- Observable outcome of the URL-shape gate in `main` (lines 503-516). -/
structure UrlGateOutcome where
  warned : Bool
  exitedZero : Bool
  proceeds : Bool
deriving DecidableEq

/-- The URL-shape gate (lines 503-516): a non-matching URL produces a warning
and a confirmation prompt (`proceedAnswer`); declining exits 0 cleanly,
confirming continues the flow; a matching URL passes silently. -/
def urlGate (url : String) (proceedAnswer : Bool) : UrlGateOutcome :=
  if validateGitUrl url then ⟨false, false, true⟩
  else if proceedAnswer then ⟨true, false, true⟩
  else ⟨true, true, false⟩

/-- Target-directory computation of `main` (lines 633-707, the overwrite
confirmations elided): with `isExistingFolder` set and a separator-free
`targetFolder` (the "use an existing folder" selection) the clone goes into a
repo-named subfolder of the chosen folder; otherwise the folder path itself
(joined under the root) is the target. -/
def computeTargetDir (projectsDir targetFolder repoName : String)
    (isExistingFolder : Bool) : String :=
  if isExistingFolder then
    if targetFolder.data.contains '/' then pathJoin2 projectsDir targetFolder
    else pathJoin2 (pathJoin2 projectsDir targetFolder) repoName
  else pathJoin2 projectsDir targetFolder

-- ===== theorems =====

theorem head?_append_left {α : Type} (u v : List α) (h : u ≠ []) :
    (u ++ v).head? = u.head? := by
  cases u with
  | nil => exact absurd rfl h
  | cons a as => rfl

theorem lastChar?_append (A g : List Char) (h : g ≠ []) :
    lastChar? (A ++ g) = lastChar? g := by
  unfold lastChar?
  rw [List.reverse_append]
  exact head?_append_left _ _ (by simpa using h)

/-- Key string fact behind the separator-boundary check: appending a `'/'` to
both sides, prefix-ness holds iff the paths are equal or the root-plus-slash
is a prefix of the target. -/
theorem slash_boundary_iff (r p : List Char) :
    (r ++ ['/']) <+: (p ++ ['/']) ↔ (p = r ∨ (r ++ ['/']) <+: p) := by
  rw [List.prefix_concat_iff]
  constructor
  · rintro (h | h)
    · exact Or.inl (List.append_cancel_right h).symm
    · exact Or.inr h
  · rintro (h | h)
    · exact Or.inl (by rw [h])
    · exact Or.inr h

theorem validateChars_eq (cwd t r : List Char) :
    validateChars cwd t r =
      (if (pathResolveChars cwd r ++ ['/']).isPrefixOf (pathResolveChars cwd t ++ ['/']) ∨
          pathResolveChars cwd t = pathResolveChars cwd r
       then some (pathResolveChars cwd t) else none) := by
  unfold validateChars
  by_cases h1 : (pathResolveChars cwd r ++ ['/']).isPrefixOf (pathResolveChars cwd t ++ ['/'])
  · simp [h1]
  · by_cases h2 : pathResolveChars cwd t = pathResolveChars cwd r
    · simp [h1, h2]
    · simp [h1, h2]

theorem pathResolveChars_of_abs (cwd l : List Char) (h : l.head? = some '/') :
    pathResolveChars cwd l =
      (if joinSlash (normSegsAux false [] (splitSlash l)) = [] then ['/']
       else '/' :: joinSlash (normSegsAux false [] (splitSlash l))) := by
  have hne : l ≠ [] := by cases l <;> simp_all
  unfold pathResolveChars
  simp [hne, h]

/-- C1 — `validatePathWithinProjectsDir` accepts a target `P` against a root
`R` (returning the resolved `P`) iff the resolved `P` equals the resolved `R`
or the resolved `R` followed by a separator is a prefix of the resolved `P`;
in particular the sibling `/a/proj2` of the root `/a/proj` is rejected. -/
theorem c1_validate_boundary (cwd P R : String) :
    ((validatePathWithinProjectsDir cwd P R).isSome ↔
      (pathResolve cwd P = pathResolve cwd R ∨
        ((pathResolve cwd R).data ++ ['/']) <+: (pathResolve cwd P).data))
    ∧ validatePathWithinProjectsDir cwd "/a/proj2" "/a/proj" = none
    ∧ ((validatePathWithinProjectsDir cwd P R).isSome →
        validatePathWithinProjectsDir cwd P R = some (pathResolve cwd P)) := by
  have hdP : (pathResolve cwd P).data = pathResolveChars cwd.data P.data := rfl
  have hdR : (pathResolve cwd R).data = pathResolveChars cwd.data R.data := rfl
  have hiff : (pathResolve cwd P = pathResolve cwd R) ↔
      (pathResolveChars cwd.data P.data = pathResolveChars cwd.data R.data) :=
    ⟨fun h => congrArg String.data h, fun h => congrArg String.mk h⟩
  refine ⟨?_, ?_, ?_⟩
  · unfold validatePathWithinProjectsDir
    rw [validateChars_eq, hiff, hdP, hdR]
    by_cases h : (pathResolveChars cwd.data R.data ++ ['/']).isPrefixOf
        (pathResolveChars cwd.data P.data ++ ['/']) = true ∨
        pathResolveChars cwd.data P.data = pathResolveChars cwd.data R.data
    · rw [if_pos h]
      simp only [Option.map_some', Option.isSome_some, true_iff]
      rcases h with h | h
      · exact (slash_boundary_iff _ _).mp (by simpa using h)
      · exact Or.inl h
    · rw [if_neg h]
      simp only [Option.map_none', Option.isSome_none, Bool.false_eq_true, false_iff]
      intro hcon
      apply h
      rcases hcon with h' | h'
      · exact Or.inr h'
      · exact Or.inl (by simpa using (slash_boundary_iff _ _).mpr (Or.inr h'))
  · unfold validatePathWithinProjectsDir
    have h2 : pathResolveChars cwd.data ("/a/proj2" : String).data = "/a/proj2".data := by
      rw [pathResolveChars_of_abs _ _ (by decide)]
      decide
    have h1 : pathResolveChars cwd.data ("/a/proj" : String).data = "/a/proj".data := by
      rw [pathResolveChars_of_abs _ _ (by decide)]
      decide
    rw [validateChars_eq, h1, h2]
    rw [if_neg]
    · rfl
    · decide
  · intro h
    unfold validatePathWithinProjectsDir at h ⊢
    rw [validateChars_eq] at h ⊢
    by_cases hc : (pathResolveChars cwd.data R.data ++ ['/']).isPrefixOf
        (pathResolveChars cwd.data P.data ++ ['/']) ∨
        pathResolveChars cwd.data P.data = pathResolveChars cwd.data R.data
    · rw [if_pos hc]; rfl
    · rw [if_neg hc] at h; simp at h

/-- C1 witness: the root itself is accepted, the sibling is rejected. -/
theorem c1_validate_boundary_witness :
    validatePathWithinProjectsDir "/" "/a/proj" "/a/proj" = some (pathResolve "/" "/a/proj")
    ∧ validatePathWithinProjectsDir "/" "/a/proj2" "/a/proj" = none := by
  refine ⟨?_, (c1_validate_boundary "/" "/a/proj" "/a/proj").2.1⟩
  apply (c1_validate_boundary "/" "/a/proj" "/a/proj").2.2
  rw [Option.isSome_iff_exists]
  exact ⟨"/a/proj", by decide⟩

theorem tailOk_append_slash (u v : List Char) (hv : v ≠ []) :
    tailOk (u ++ '/' :: v) = false := by
  have h1 : u ++ '/' :: v ≠ [] := by simp
  have h2 : u ++ '/' :: v ≠ ['.', 'g', 'i', 't'] := by
    intro h
    have hm : '/' ∈ u ++ '/' :: v := by simp
    rw [h] at hm
    exact absurd hm (by decide)
  have h3 : u ++ '/' :: v ≠ ['/'] := by
    intro h
    have hl := congrArg List.length h
    simp [List.length_append] at hl
    exact hv (List.eq_nil_of_length_eq_zero (by omega))
  have h4 : u ++ '/' :: v ≠ ['.', 'g', 'i', 't', '/'] := by
    intro h
    have hc := congrArg (List.count '/') h
    rw [List.count_append, List.count_cons_self] at hc
    have hR : List.count '/' (['.', 'g', 'i', 't', '/'] : List Char) = 1 := by decide
    rw [hR] at hc
    have hv0 : List.count '/' v = 0 := by omega
    have hrev := congrArg List.reverse h
    simp only [List.reverse_append, List.reverse_cons] at hrev
    cases hv2 : v.reverse with
    | nil => exact hv (by simpa using hv2)
    | cons x xs =>
      rw [hv2] at hrev
      have hx : x = '/' := by
        have hh := congrArg List.head? hrev
        simp at hh
        exact hh
      have hxv : x ∈ v := by
        have : x ∈ v.reverse := by rw [hv2]; exact List.mem_cons_self _ _
        simpa using this
      rw [hx] at hxv
      have := List.count_eq_zero.mp hv0
      exact this hxv
  simp [tailOk, h1, h2, h3, h4]

theorem lazyFind_cons (acc : List Char) (c : Char) (cs : List Char) :
    lazyFind acc (c :: cs) =
      if c = '/' then none
      else if tailOk cs then some (acc ++ [c])
      else lazyFind (acc ++ [c]) cs := rfl

theorem findMatch_cons (c : Char) (cs : List Char) :
    findMatch (c :: cs) =
      if c = '/' then
        match lazyFind [] cs with
        | some g => some g
        | none => findMatch cs
      else findMatch cs := rfl

theorem lazyFind_append_slash (u v : List Char) (hv : v ≠ []) :
    ∀ acc, lazyFind acc (u ++ '/' :: v) = none := by
  induction u with
  | nil => intro acc; rw [List.nil_append, lazyFind_cons, if_pos rfl]
  | cons c u' ih =>
    intro acc
    rw [List.cons_append, lazyFind_cons]
    by_cases hc : c = '/'
    · rw [if_pos hc]
    · rw [if_neg hc, tailOk_append_slash u' v hv]
      simp only [Bool.false_eq_true, if_false]
      exact ih _

theorem tailOk_of_seg (s : List Char) (hne : s ≠ []) (hs : '/' ∉ s)
    (hgit : s ≠ ['.', 'g', 'i', 't']) : tailOk s = false := by
  have h3 : s ≠ ['/'] := fun h => hs (by rw [h]; decide)
  have h4 : s ≠ ['.', 'g', 'i', 't', '/'] := fun h => hs (by rw [h]; decide)
  simp [tailOk, hne, hgit, h3, h4]

theorem lazyFind_group (ext : List Char) (hext : tailOk ext = true) :
    ∀ name : List Char, name ≠ [] → '/' ∉ name →
      (∀ s : List Char, s ≠ [] → s ≠ name → s <:+ name → tailOk (s ++ ext) = false) →
      ∀ acc, lazyFind acc (name ++ ext) = some (acc ++ name) := by
  intro name
  induction name with
  | nil => intro h; exact absurd rfl h
  | cons c cs ih =>
    intro _ hslash hmid acc
    have hc : c ≠ '/' := by
      intro h
      exact hslash (by rw [h]; exact List.mem_cons_self _ _)
    cases cs with
    | nil =>
      show lazyFind acc (c :: ext) = some (acc ++ [c])
      rw [lazyFind_cons, if_neg hc, hext]
      simp
    | cons d ds =>
      have hcs : (d :: ds) ≠ c :: d :: ds := by
        intro heq
        have hl := congrArg List.length heq
        simp at hl
      have hfail : tailOk ((d :: ds) ++ ext) = false :=
        hmid (d :: ds) (by simp) hcs (List.suffix_cons c (d :: ds))
      show lazyFind acc (c :: ((d :: ds) ++ ext)) = some (acc ++ c :: (d :: ds))
      rw [lazyFind_cons, if_neg hc, hfail]
      simp only [Bool.false_eq_true, if_false]
      have hslash' : '/' ∉ (d :: ds) := fun h => hslash (List.mem_cons_of_mem _ h)
      have hmid' : ∀ s : List Char, s ≠ [] → s ≠ d :: ds → s <:+ d :: ds →
          tailOk (s ++ ext) = false := by
        intro s hs1 _ hs3
        have hsne : s ≠ c :: d :: ds := by
          intro heq
          have hl := List.IsSuffix.length_le hs3
          rw [heq] at hl
          simp at hl
        exact hmid s hs1 hsne (hs3.trans (List.suffix_cons c (d :: ds)))
      rw [ih (by simp) hslash' hmid' (acc ++ [c])]
      simp

theorem findMatch_at_last_slash (T g : List Char) (h : lazyFind [] T = some g) :
    ∀ A, findMatch (A ++ '/' :: T) = some g := by
  have hT : T ≠ [] := by
    intro he
    rw [he] at h
    simp [lazyFind] at h
  intro A
  induction A with
  | nil =>
    show findMatch ('/' :: T) = some g
    rw [findMatch_cons, if_pos rfl, h]
  | cons c A' ih =>
    show findMatch (c :: (A' ++ '/' :: T)) = some g
    rw [findMatch_cons]
    by_cases hc : c = '/'
    · rw [if_pos hc, lazyFind_append_slash A' T hT []]
      exact ih
    · rw [if_neg hc]
      exact ih

/-- C2 — repo-name extraction strips a trailing `.git` suffix and any trailing
slash and takes the final path segment: for a plain repository name (nonempty,
slash-free, not itself ending in `.git`) the URLs `https://host/owner/name.git`
and `https://host/owner/name` both yield `name`, and whenever the regex does
not match, the fallback literal `"repository"` is used. -/
theorem c2_repo_name_extraction (host owner name url : String)
    (h1 : name ≠ "") (h2 : '/' ∉ name.data)
    (h3 : ¬ (['.', 'g', 'i', 't'] <:+ name.data))
    (h4 : extractRepoName url = none) :
    defaultRepoName ("https://" ++ host ++ "/" ++ owner ++ "/" ++ name ++ ".git") = name
    ∧ defaultRepoName ("https://" ++ host ++ "/" ++ owner ++ "/" ++ name) = name
    ∧ defaultRepoName url = "repository" := by
  have hname : name.data ≠ [] := by
    intro h
    apply h1
    have hmk : name = String.mk name.data := rfl
    rw [hmk, h]
  have hmid1 : ∀ s : List Char, s ≠ [] → s ≠ name.data → s <:+ name.data →
      tailOk (s ++ ['.', 'g', 'i', 't']) = false := by
    intro s hs _ hsuf
    apply tailOk_of_seg
    · simp [hs]
    · intro hmem
      rw [List.mem_append] at hmem
      rcases hmem with hmem | hmem
      · exact h2 (hsuf.sublist.subset hmem)
      · exact absurd hmem (by decide)
    · intro heq
      have hl := congrArg List.length heq
      simp at hl
      exact hs hl
  have hgit : lazyFind [] (name.data ++ ['.', 'g', 'i', 't']) = some name.data := by
    have h := lazyFind_group ['.', 'g', 'i', 't'] (by decide) name.data hname h2 hmid1 []
    simpa using h
  have hmid2 : ∀ s : List Char, s ≠ [] → s ≠ name.data → s <:+ name.data →
      tailOk (s ++ []) = false := by
    intro s hs _ hsuf
    rw [List.append_nil]
    apply tailOk_of_seg s hs
    · intro hmem
      exact h2 (hsuf.sublist.subset hmem)
    · intro heq
      exact h3 (heq ▸ hsuf)
  have hbare : lazyFind [] name.data = some name.data := by
    have h := lazyFind_group [] (by decide) name.data hname h2 hmid2 []
    simpa using h
  have e1 : ("https://" ++ host ++ "/" ++ owner ++ "/" ++ name ++ ".git" : String).data
      = ("https://" ++ host ++ "/" ++ owner : String).data
          ++ '/' :: (name.data ++ ['.', 'g', 'i', 't']) := by
    simp only [String.data_append]
    simp [List.append_assoc]
  have f1 : findMatch ("https://" ++ host ++ "/" ++ owner ++ "/" ++ name ++ ".git"
      : String).data = some name.data := by
    rw [e1]
    exact findMatch_at_last_slash _ _ hgit _
  have e2 : ("https://" ++ host ++ "/" ++ owner ++ "/" ++ name : String).data
      = ("https://" ++ host ++ "/" ++ owner : String).data ++ '/' :: name.data := by
    simp only [String.data_append]
    simp [List.append_assoc]
  have f2 : findMatch ("https://" ++ host ++ "/" ++ owner ++ "/" ++ name
      : String).data = some name.data := by
    rw [e2]
    exact findMatch_at_last_slash _ _ hbare _
  refine ⟨?_, ?_, ?_⟩
  · unfold defaultRepoName extractRepoName
    rw [f1]
    rfl
  · unfold defaultRepoName extractRepoName
    rw [f2]
    rfl
  · unfold defaultRepoName
    rw [h4]
    rfl

/-- C2 witness: a concrete clean name, both URL shapes, and a concrete
non-matching input. -/
theorem c2_repo_name_extraction_witness :
    defaultRepoName "https://github.com/user/repo.git" = "repo"
    ∧ defaultRepoName "https://github.com/user/repo" = "repo"
    ∧ defaultRepoName "xyz" = "repository" := by
  have h := c2_repo_name_extraction "github.com" "user" "repo" "xyz"
    (by decide) (by decide) (by decide) (by decide)
  exact ⟨h.1, h.2.1, h.2.2⟩

/-- C3 — a clone whose subprocess exits nonzero or fails to spawn is reported
and exits the process with code 1 without ever reaching the editor-open
prompt; the prompt is reached exactly when the spawn succeeded with exit
status 0. -/
theorem c3_clone_failure_aborts (res : SpawnResult) (dir : String) :
    ((mainCloneStep res dir).promptShown = true ↔
      (res.error = none ∧ res.status = some 0))
    ∧ (res.error ≠ none ∨ res.status ≠ some 0 →
        (mainCloneStep res dir).exitCode = 1
        ∧ (mainCloneStep res dir).promptShown = false
        ∧ (mainCloneStep res dir).reported ≠ none) := by
  rcases res with ⟨err, st⟩
  cases err with
  | some e => simp [mainCloneStep, cloneRepository]
  | none =>
    cases st with
    | none => simp [mainCloneStep, cloneRepository]
    | some s =>
      by_cases hs : s = 0
      · subst hs
        simp [mainCloneStep, cloneRepository]
      · simp [mainCloneStep, cloneRepository, hs]

/-- C3 witness: a nonzero exit status at a concrete input. -/
theorem c3_clone_failure_aborts_witness :
    (mainCloneStep ⟨none, some 1⟩ "/p/x").exitCode = 1
    ∧ (mainCloneStep ⟨none, some 1⟩ "/p/x").promptShown = false
    ∧ (mainCloneStep ⟨none, some 1⟩ "/p/x").reported ≠ none :=
  (c3_clone_failure_aborts ⟨none, some 1⟩ "/p/x").2 (Or.inr (by decide))

/-- C4 — `loadConfig` resolves the effective root with precedence: a (truthy)
`GIT_CLONE_PROJECTS_DIR` environment value wins; otherwise the truthy
`projectsDir` field of an existing, parsable config file; otherwise the result
is absent.  The function is total (it never throws), and when the file exists
but does not parse it logs a warning and reports absent. -/
theorem c4_loadConfig_precedence (envVar : Option String) (fileExists : Bool)
    (parse : Except String ConfigJson) :
    (∀ s, envVar = some s → s ≠ "" → loadConfig envVar fileExists parse = (some s, []))
    ∧ (envTruthy envVar = false →
        ((∀ e, parse = Except.error e → fileExists = true →
            loadConfig envVar fileExists parse =
              (none, ["Warning: Could not read config file: " ++ e]))
         ∧ (∀ cfg d, parse = Except.ok cfg → cfg.projectsDir = some d → d ≠ "" →
              fileExists = true → loadConfig envVar fileExists parse = (some d, []))
         ∧ (∀ cfg, parse = Except.ok cfg →
              (cfg.projectsDir = none ∨ cfg.projectsDir = some "") → fileExists = true →
              loadConfig envVar fileExists parse = (none, []))
         ∧ (fileExists = false → loadConfig envVar fileExists parse = (none, [])))) := by
  constructor
  · intro s hs hne
    subst hs
    simp [loadConfig, envTruthy, hne]
  · intro henv
    refine ⟨?_, ?_, ?_, ?_⟩
    · intro e he hf
      subst he; subst hf
      simp [loadConfig, henv, loadConfigFromFile]
    · intro cfg d hp hd hne hf
      subst hp; subst hf
      simp [loadConfig, henv, loadConfigFromFile, hd, hne]
    · intro cfg hp hcase hf
      subst hp; subst hf
      rcases hcase with hc | hc <;> simp [loadConfig, henv, loadConfigFromFile, hc]
    · intro hf
      subst hf
      simp [loadConfig, henv, loadConfigFromFile]

/-- C4 witness: environment override, parse failure, and missing file at
concrete inputs. -/
theorem c4_loadConfig_precedence_witness :
    loadConfig (some "/envdir") true (Except.ok ⟨some "/filedir"⟩) = (some "/envdir", [])
    ∧ loadConfig none true (Except.error "bad json") =
        (none, ["Warning: Could not read config file: bad json"])
    ∧ loadConfig none false (Except.ok ⟨none⟩) = (none, []) := by
  refine ⟨?_, ?_, ?_⟩
  · exact (c4_loadConfig_precedence (some "/envdir") true
      (Except.ok ⟨some "/filedir"⟩)).1 "/envdir" rfl (by decide)
  · exact ((c4_loadConfig_precedence none true (Except.error "bad json")).2 rfl).1
      "bad json" rfl rfl
  · exact (((c4_loadConfig_precedence none false (Except.ok ⟨none⟩)).2 rfl).2.2.2) rfl

/-- C7 — `--reset-config` is idempotent: with no config file it completes with
exit code 0 (absence is not an error) printing the setup guidance, and with a
config file present it deletes it, printing the same guidance. -/
theorem c7_reset_config_idempotent (unlinkError : Option String) :
    resetConfigCmd false unlinkError =
      ⟨0, false, ["Run git-clone to set up configuration."]⟩
    ∧ resetConfigCmd true none =
      ⟨0, true, ["Configuration reset.", "Run git-clone to set up configuration."]⟩ := by
  exact ⟨rfl, rfl⟩

/-- C10 — a non-empty `GIT_CLONE_PROJECTS_DIR` value is returned verbatim as
the effective root (no resolution, normalization, absoluteness or home check),
so some environment values produce a root outside the home directory. -/
theorem c10_env_override_verbatim (s : String) (fileExists : Bool)
    (parse : Except String ConfigJson) (h : s ≠ "") :
    loadConfig (some s) fileExists parse = (some s, [])
    ∧ (loadConfig (some "/etc/projects") fileExists parse).1 = some "/etc/projects"
    ∧ ¬ withinDir "/home/user" "/etc/projects" := by
  refine ⟨?_, ?_, by decide⟩
  · simp [loadConfig, envTruthy, h]
  · have he : envTruthy (some "/etc/projects") = true := by decide
    simp [loadConfig, he]

/-- C10 witness: an unnormalized relative environment value is returned
verbatim, and a concrete value escapes the home directory. -/
theorem c10_env_override_verbatim_witness :
    loadConfig (some "../rel/dir") true (Except.ok ⟨some "/x"⟩) = (some "../rel/dir", [])
    ∧ ¬ withinDir "/home/user" "/etc/projects" :=
  ⟨(c10_env_override_verbatim "../rel/dir" true (Except.ok ⟨some "/x"⟩) (by decide)).1,
   (c10_env_override_verbatim "x" true (Except.ok ⟨some "/x"⟩) (by decide)).2.2⟩

/-- C5 counterexample — the home-containment check of `setConfig` is a naive
string-prefix test: with home directory `/home/user`, the sibling path
`/home/userx` is not within the home directory, yet `setConfig` accepts it
and proceeds to persist it (the claim says every such path is rejected with
no config mutation). -/
theorem c5_counterexample_sibling_accepted :
    setConfig "/home/user" "/" "/home/userx" = Except.ok "/home/userx"
    ∧ ¬ withinDir "/home/user" "/home/userx" := by
  exact ⟨rfl, by decide⟩

/-- C5 (amended) — `setConfig` rejects an input path, with the validation
message and before any config mutation, exactly when its resolved form does
not have the home directory as a plain string prefix; the check has no
separator boundary, so sibling paths sharing the home's string prefix (such
as `/home/userx` under home `/home/user`) are accepted instead of rejected. -/
theorem c5_amended_naive_home_check (homeDir cwd newPath : String)
    (h : ¬ (homeDir.data.isPrefixOf (pathResolve cwd newPath).data = true)) :
    setConfig homeDir cwd newPath =
      Except.error "Projects directory must be within your home directory" := by
  unfold setConfig
  rw [if_neg h]

/-- C5 witness: a path outside the home prefix is rejected. -/
theorem c5_amended_naive_home_check_witness :
    setConfig "/home/user" "/" "/tmp/evil" =
      Except.error "Projects directory must be within your home directory" :=
  c5_amended_naive_home_check "/home/user" "/" "/tmp/evil" (by decide)

/-- C8 — URL shape validation is advisory and never a hard gate: every URL
matching none of the accepted patterns produces a warning and a confirmation
prompt; declining exits cleanly with code 0, and confirming lets the flow
proceed with that URL. -/
theorem c8_url_gate_advisory (url : String) (answer : Bool)
    (h : validateGitUrl url = false) :
    (urlGate url answer).warned = true
    ∧ (answer = false → urlGate url answer = ⟨true, true, false⟩)
    ∧ (answer = true → urlGate url answer = ⟨true, false, true⟩) := by
  unfold urlGate
  rw [h]
  simp only [Bool.false_eq_true, if_false]
  cases answer <;> simp

/-- C8 witness: a concrete non-matching URL, both answers. -/
theorem c8_url_gate_advisory_witness :
    (urlGate "foo" true).warned = true
    ∧ urlGate "foo" true = ⟨true, false, true⟩
    ∧ urlGate "foo" false = ⟨true, true, false⟩ :=
  ⟨(c8_url_gate_advisory "foo" true (by decide)).1,
   (c8_url_gate_advisory "foo" true (by decide)).2.2 rfl,
   (c8_url_gate_advisory "foo" false (by decide)).2.1 rfl⟩

/-- C9 — the code only runs the fallback editor when `spawnSync('cursor', ...)`
throws, but `spawnSync` reports a failed invocation (e.g. the `cursor` binary
missing) by returning a result whose `error` field is set, without throwing:
on that realistic failure the fallback is never attempted and the success
message is printed anyway; the fallback and the manual-open guidance run only
on thrown errors. -/
theorem c9_spawn_error_skips_fallback :
    openInCursor (SpawnBehavior.returns ⟨some "spawn cursor ENOENT", none⟩)
        (SpawnBehavior.returns ⟨none, some 0⟩)
      = ⟨false, ["Opening in Cursor..."]⟩
    ∧ openInCursor (SpawnBehavior.throws "cursor threw")
        (SpawnBehavior.returns ⟨none, some 0⟩)
      = ⟨true, ["Opening in editor..."]⟩
    ∧ openInCursor (SpawnBehavior.throws "cursor threw") (SpawnBehavior.throws "code threw")
      = ⟨true, ["Could not open in Cursor automatically. Please open manually."]⟩ := by
  exact ⟨rfl, rfl, rfl⟩

theorem splitSlash_noslash (u : List Char) (h : '/' ∉ u) : splitSlash u = [u] := by
  induction u with
  | nil => rfl
  | cons c cs ih =>
    have hc : c ≠ '/' := by
      intro hcc
      apply h
      rw [hcc]
      exact List.mem_cons_self _ _
    have hcs : '/' ∉ cs := fun hm => h (List.mem_cons_of_mem _ hm)
    show splitSlash (c :: cs) = [c :: cs]
    simp only [splitSlash]
    rw [if_neg hc, ih hcs]

theorem splitSlash_append (u v : List Char) (h : '/' ∉ u) :
    splitSlash (u ++ '/' :: v) = u :: splitSlash v := by
  induction u with
  | nil =>
    show splitSlash ('/' :: v) = [] :: splitSlash v
    simp [splitSlash]
  | cons c cs ih =>
    have hc : c ≠ '/' := by
      intro hcc
      apply h
      rw [hcc]
      exact List.mem_cons_self _ _
    have hcs : '/' ∉ cs := fun hm => h (List.mem_cons_of_mem _ hm)
    show splitSlash (c :: (cs ++ '/' :: v)) = (c :: cs) :: splitSlash v
    simp only [splitSlash]
    rw [if_neg hc, ih hcs]

theorem joinSlash_cons (g : List Char) (gs : List (List Char)) (h : gs ≠ []) :
    joinSlash (g :: gs) = g ++ '/' :: joinSlash gs := by
  cases gs with
  | nil => exact absurd rfl h
  | cons a as => rfl

theorem joinSlash_append_single (xs : List (List Char)) (y : List Char) (h : xs ≠ []) :
    joinSlash (xs ++ [y]) = joinSlash xs ++ '/' :: y := by
  induction xs with
  | nil => exact absurd rfl h
  | cons a as ih =>
    cases as with
    | nil => rfl
    | cons b bs =>
      show joinSlash (a :: ((b :: bs) ++ [y])) = joinSlash (a :: b :: bs) ++ '/' :: y
      rw [joinSlash_cons a ((b :: bs) ++ [y]) (by simp),
          joinSlash_cons a (b :: bs) (by simp), ih (by simp)]
      simp

theorem splitSlash_joinSlash_append (segs : List (List Char)) (v : List Char)
    (hne : segs ≠ []) (hclean : ∀ s ∈ segs, '/' ∉ s) :
    splitSlash (joinSlash segs ++ '/' :: v) = segs ++ splitSlash v := by
  induction segs with
  | nil => exact absurd rfl hne
  | cons s rest ih =>
    cases rest with
    | nil =>
      show splitSlash (joinSlash [s] ++ '/' :: v) = [s] ++ splitSlash v
      have hj : joinSlash [s] = s := rfl
      rw [hj, splitSlash_append s v (hclean s (List.mem_cons_self _ _))]
      rfl
    | cons s2 rest2 =>
      rw [joinSlash_cons s (s2 :: rest2) (by simp)]
      have hassoc : (s ++ '/' :: joinSlash (s2 :: rest2)) ++ '/' :: v
          = s ++ '/' :: (joinSlash (s2 :: rest2) ++ '/' :: v) := by simp
      rw [hassoc, splitSlash_append s _ (hclean s (List.mem_cons_self _ _)),
          ih (by simp) (fun t ht => hclean t (List.mem_cons_of_mem _ ht))]
      rfl

theorem normSegsAux_clean (b : Bool) (segs : List (List Char)) :
    ∀ acc : List (List Char), (∀ s ∈ segs, isCleanSeg s) →
      normSegsAux b acc segs = acc.reverse ++ segs := by
  induction segs with
  | nil => intro acc _; simp [normSegsAux]
  | cons s rest ih =>
    intro acc hclean
    obtain ⟨h1, h2, h3, h4⟩ := hclean s (List.mem_cons_self _ _)
    show normSegsAux b acc (s :: rest) = acc.reverse ++ s :: rest
    simp only [normSegsAux]
    rw [if_neg (fun hor => hor.elim h1 h3), if_neg h4,
        ih (s :: acc) (fun t ht => hclean t (List.mem_cons_of_mem _ ht))]
    simp

theorem lastChar?_mem (l : List Char) (c : Char) (h : lastChar? l = some c) : c ∈ l := by
  unfold lastChar? at h
  cases hl : l.reverse with
  | nil => rw [hl] at h; simp at h
  | cons x xs =>
    rw [hl] at h
    simp at h
    subst h
    have hx : x ∈ l.reverse := by rw [hl]; exact List.mem_cons_self _ _
    simpa using hx

/-- Joining one more clean segment onto a normalized absolute path appends it
past a single separator. -/
theorem pathJoinChars_clean (rsegs : List (List Char)) (g : List Char)
    (hne : rsegs ≠ []) (hclean : ∀ s ∈ rsegs, isCleanSeg s) (hg : isCleanSeg g) :
    pathJoinChars ['/' :: joinSlash rsegs, g] = '/' :: joinSlash (rsegs ++ [g]) := by
  obtain ⟨hg1, hg2, hg3, hg4⟩ := hg
  have hg0 : g.isEmpty = false := by
    cases g with
    | nil => exact absurd rfl hg1
    | cons a as => rfl
  have hfil : (['/' :: joinSlash rsegs, g].filter (fun q => !q.isEmpty)) =
      ['/' :: joinSlash rsegs, g] := by
    simp [List.filter, hg0]
  have hjoin2 : joinSlash ['/' :: joinSlash rsegs, g] =
      '/' :: (joinSlash rsegs ++ '/' :: g) := by
    show ('/' :: joinSlash rsegs) ++ '/' :: g = _
    simp
  have hsp : splitSlash ('/' :: (joinSlash rsegs ++ '/' :: g))
      = [] :: splitSlash (joinSlash rsegs ++ '/' :: g) := by
    simp [splitSlash]
  have hsplit : splitSlash (joinSlash rsegs ++ '/' :: g) = rsegs ++ [g] := by
    rw [splitSlash_joinSlash_append rsegs g hne (fun s hs => (hclean s hs).2.1),
        splitSlash_noslash g hg2]
  have hstep : normSegsAux false [] ([] :: (rsegs ++ [g]))
      = normSegsAux false [] (rsegs ++ [g]) := by
    simp [normSegsAux]
  have hcleanall : ∀ s ∈ rsegs ++ [g], isCleanSeg s := by
    intro s hs
    rw [List.mem_append] at hs
    rcases hs with hs | hs
    · exact hclean s hs
    · simp at hs
      subst hs
      exact ⟨hg1, hg2, hg3, hg4⟩
  have hnorm : normSegsAux false [] (splitSlash ('/' :: (joinSlash rsegs ++ '/' :: g)))
      = rsegs ++ [g] := by
    rw [hsp, hsplit, hstep, normSegsAux_clean false (rsegs ++ [g]) [] hcleanall]
    simp
  have hcore : joinSlash (rsegs ++ [g]) ≠ [] := by
    cases rsegs with
    | nil => exact absurd rfl hne
    | cons r rest =>
      have hcons : (r :: rest) ++ [g] = r :: (rest ++ [g]) := by simp
      rw [hcons, joinSlash_cons r (rest ++ [g]) (by simp)]
      simp
  have hlast : lastChar? ('/' :: (joinSlash rsegs ++ '/' :: g)) = lastChar? g := by
    have hsh : ('/' :: (joinSlash rsegs ++ '/' :: g)) = ('/' :: joinSlash rsegs ++ ['/']) ++ g := by
      simp
    rw [hsh]
    exact lastChar?_append _ _ hg1
  have htrail : (lastChar? ('/' :: (joinSlash rsegs ++ '/' :: g)) == some '/') = false := by
    rw [hlast]
    cases hc : lastChar? g with
    | none => rfl
    | some c =>
      have hcm : c ∈ g := lastChar?_mem g c hc
      have hcne : c ≠ '/' := fun hcc => hg2 (hcc ▸ hcm)
      simp [hcne]
  unfold pathJoinChars
  rw [hfil, if_neg (by simp), hjoin2]
  unfold pathNormalizeChars
  rw [if_neg (by simp)]
  simp only [List.head?_cons]
  simp [htrail, hnorm, hcore]

/-- C6 (amended) — whenever the projects root is non-empty and the user
selects "use an existing folder" `F`, the computed clone target is
`<root>/F/<repoName>`, provided the extracted repository name is a plain path
segment (nonempty, slash-free, and not the special segments `.` or `..`);
for such names the target never collapses to `<root>/F`.  (For the degenerate
extracted names `.` and `..`, `path.join` normalizes the segment away.) -/
theorem c6_existing_folder_nests_repo (rsegs : List (List Char))
    (root F name : String)
    (hroot : root.data = '/' :: joinSlash rsegs)
    (hne : rsegs ≠ []) (hclean : ∀ s ∈ rsegs, isCleanSeg s)
    (hF : isCleanSeg F.data) (hname : isCleanSeg name.data) :
    computeTargetDir root F name true = root ++ "/" ++ F ++ "/" ++ name
    ∧ root ++ "/" ++ F ++ "/" ++ name ≠ root ++ "/" ++ F := by
  have hFc : F.data.contains '/' = false := by
    simp [hF.2.1]
  constructor
  · unfold computeTargetDir
    rw [if_pos rfl, hFc]
    simp only [Bool.false_eq_true, if_false]
    have hj1 : (pathJoin2 root F).data = '/' :: joinSlash (rsegs ++ [F.data]) := by
      show pathJoinChars [root.data, F.data] = _
      rw [hroot]
      exact pathJoinChars_clean rsegs F.data hne hclean hF
    have hcleanF : ∀ s ∈ rsegs ++ [F.data], isCleanSeg s := by
      intro s hs
      rw [List.mem_append] at hs
      rcases hs with hs | hs
      · exact hclean s hs
      · simp at hs
        subst hs
        exact hF
    have hj2 : (pathJoin2 (pathJoin2 root F) name).data
        = '/' :: joinSlash ((rsegs ++ [F.data]) ++ [name.data]) := by
      show pathJoinChars [(pathJoin2 root F).data, name.data] = _
      rw [hj1]
      exact pathJoinChars_clean (rsegs ++ [F.data]) name.data (by simp) hcleanF hname
    have hdata : (root ++ "/" ++ F ++ "/" ++ name).data
        = '/' :: joinSlash ((rsegs ++ [F.data]) ++ [name.data]) := by
      simp only [String.data_append]
      rw [hroot, joinSlash_append_single (rsegs ++ [F.data]) name.data (by simp),
          joinSlash_append_single rsegs F.data hne]
      simp
    have hfinal : (pathJoin2 (pathJoin2 root F) name).data
        = (root ++ "/" ++ F ++ "/" ++ name).data := hj2.trans hdata.symm
    exact congrArg String.mk hfinal
  · intro heq
    have hlen := congrArg (fun s : String => s.data.length) heq
    simp only [String.data_append, List.length_append] at hlen
    have hpos : name.data.length ≠ 0 := by
      intro h0
      exact hname.1 (List.eq_nil_of_length_eq_zero h0)
    simp at hlen
    omega

/-- C6 witness: a concrete root with two existing folders, folder `work`,
repo name `repo`. -/
theorem c6_existing_folder_nests_repo_witness :
    computeTargetDir "/home/u/Projects" "work" "repo" true
      = "/home/u/Projects" ++ "/" ++ "work" ++ "/" ++ "repo"
    ∧ "/home/u/Projects" ++ "/" ++ "work" ++ "/" ++ ("repo" : String)
        ≠ "/home/u/Projects" ++ "/" ++ "work" :=
  c6_existing_folder_nests_repo
    [['h', 'o', 'm', 'e'], ['u'], ['P', 'r', 'o', 'j', 'e', 'c', 't', 's']]
    "/home/u/Projects" "work" "repo" (by decide) (by decide) (by decide)
    (by decide) (by decide)

/-- C6 counterexample — the unrestricted claim fails for the extracted repo name
`.`, which arises from the crafted URL `https://h/.`: `path.join` normalizes
the `.` away, so with root `/home/u/Projects` and existing folder `work` the
computed clone target is exactly `<root>/work` — the direct-folder target the
claim says can never occur — and not `<root>/work/.`. -/
theorem c6_counterexample_dot_repo :
    defaultRepoName "https://h/." = "."
    ∧ computeTargetDir "/home/u/Projects" "work" (defaultRepoName "https://h/.") true
        = "/home/u/Projects/work"
    ∧ ("/home/u/Projects/work" : String)
        ≠ "/home/u/Projects" ++ "/" ++ "work" ++ "/" ++ defaultRepoName "https://h/." := by
  refine ⟨rfl, rfl, by decide⟩
